import Mathlib

/-!
Verification of the dependency-resolution subsystem ("resolver") of the
xsdata schema-to-source code generator.

The resolver implementation (xsdata/codegen/resolver.py) is not part of the
source excerpt; only its unit tests (tests/codegen/test_resolver.py) are.
All resolver operations below are therefore modelled from the natural
language specification, cross-checked against the expected values that the
unit tests pin down.  Python dictionaries are modelled as association lists
with insert-order update-in-place semantics, Python sets as lists used
order-insensitively, raised exceptions as `Except String`, and the lazy
`sorted_classes` generator as a function returning the yielded list together
with the final resolver state.
-/

set_option maxRecDepth 4000

namespace Xsdata

/-- Modelled from the spec: an attribute of a generated class — a name, a
type reference string, a local-type marker, a forward-reference flag, and a
mutable type-alias field that is initially unset. -/
structure Attr where
  name : String
  type : String
  local_type : String
  forward_ref : Bool
  type_alias : Option String
deriving Repr, DecidableEq

/-- Modelled from the spec: an import record — imported symbol name, optional
alias, and source module/package path, with value equality on the triple. -/
structure Package where
  name : String
  «alias» : Option String
  source : String
deriving Repr, DecidableEq

/-- Modelled from the spec: the part of a schema object the resolver reads —
its target namespace and its prefix-to-URI namespace map. -/
structure Schema where
  target_namespace : Option String
  nsmap : List (String × String)
deriving Repr, DecidableEq

/-- Modelled from the spec: a generated class — name, attributes, nested
inner classes of the same shape, and base-type extension reference strings. -/
inductive Class where
  | mk (name : String) (attrs : List Attr) (inner : List Class) (extensions : List String)

/-- Name of a class. -/
def Class.name : Class → String
  | .mk n _ _ _ => n

/-- Attributes of a class. -/
def Class.attrs : Class → List Attr
  | .mk _ a _ _ => a

/-- Nested inner classes of a class. -/
def Class.inner : Class → List Class
  | .mk _ _ i _ => i

/-- Extension (base type) references of a class. -/
def Class.extensions : Class → List String
  | .mk _ _ _ e => e

/-- Character-list comparison by code point: strict lexicographic order. -/
def charLtList : List Char → List Char → Bool
  | [], [] => false
  | [], _ :: _ => true
  | _ :: _, [] => false
  | a :: as, b :: bs =>
    if a < b then true
    else if b < a then false
    else charLtList as bs

/-- Strict lexicographic order on strings by code point, as in Python. -/
def strLtB (a b : String) : Bool := charLtList a.data b.data

/-- Reflexive lexicographic order on strings, as a Bool. -/
def strLeB (a b : String) : Bool := !(strLtB b a)

/-- Strict lexicographic order on strings, as a Prop. -/
def strLt (a b : String) : Prop := strLtB a b = true

/-- Reflexive lexicographic order on strings, as a Prop. -/
def strLe (a b : String) : Prop := strLeB a b = true

instance : DecidableRel strLt := fun a b => instDecidableEqBool (strLtB a b) true

instance : DecidableRel strLe := fun a b => instDecidableEqBool (strLeB a b) true

/-- Python-dict update: replace the value in place if the key is present,
otherwise append the binding at the end. -/
def dictSet {α : Type} : List (String × α) → String → α → List (String × α)
  | [], k, v => [(k, v)]
  | (k', v') :: rest, k, v =>
    if k' = k then (k, v) :: rest else (k', v') :: dictSet rest k v

/-- Python-dict lookup: the value of the first (hence unique) binding. -/
def dictGet {α : Type} : List (String × α) → String → Option α
  | [], _ => none
  | p :: rest, k => if p.1 = k then some p.2 else dictGet rest k

/-- Per-document resolver session state plus the process-wide index, as the
spec lays them out: the processed qualified-name index, the alias map,
the import list, the dependency-ordered class list, the local class map, the
working schema and the target package. -/
structure DependenciesResolver where
  processed : List (String × String)
  aliases : List (String × String)
  imports : List Package
  class_list : List String
  class_map : List (String × Class)
  schema : Schema
  package : String

/-- A resolver with everything empty, as constructed at run start. -/
def emptyResolver : DependenciesResolver :=
  { processed := [], aliases := [], imports := [], class_list := [],
    class_map := [], schema := { target_namespace := none, nsmap := [] }, package := "" }

/-- Local names of the XML Schema built-in datatypes. -/
def xsdTypeNames : List String :=
  ["anyURI", "anySimpleType", "anyType", "base64Binary", "boolean", "byte",
   "date", "dateTime", "decimal", "double", "duration", "ENTITIES", "ENTITY",
   "float", "gDay", "gMonth", "gMonthDay", "gYear", "gYearMonth", "hexBinary",
   "ID", "IDREF", "IDREFS", "int", "integer", "language", "long", "Name",
   "NCName", "negativeInteger", "NMTOKEN", "NMTOKENS", "nonNegativeInteger",
   "nonPositiveInteger", "normalizedString", "NOTATION", "positiveInteger",
   "QName", "short", "string", "time", "token", "unsignedByte", "unsignedInt",
   "unsignedLong", "unsignedShort"]

/-- The characters after the last colon (the whole list when no colon). -/
def afterLastColon (l : List Char) : List Char :=
  l.foldl (fun acc c => if c = ':' then [] else acc ++ [c]) []

/-- Modelled from the spec: whether a type reference names a built-in/native
schema datatype (its local part is an XML Schema datatype name), e.g.
`xs:string` or `xs:int`. -/
def isXsdType (s : String) : Bool :=
  xsdTypeNames.contains (String.mk (afterLastColon s.data))

/-- Split a character list at the first colon, if any. -/
def splitColon : List Char → Option (List Char × List Char)
  | [] => none
  | c :: rest =>
    if c = ':' then some ([], rest)
    else (splitColon rest).map (fun p => (c :: p.1, p.2))

/-- Modelled from the spec: split a possibly prefixed reference
`prefix:localname` into its optional prefix and its local name. -/
def splitRef (s : String) : Option String × String :=
  match splitColon s.data with
  | none => (none, s)
  | some (p, rest) => (some (String.mk p), String.mk rest)

mutual
/-- Modelled from the spec: the dependency set of a class — the type
references of its non-forward-reference attributes, its extension
references, and, recursively, those of its nested inner classes, with
built-in datatype names never included.  Python keeps these in a set; the
list here is used order-insensitively. -/
def collect_deps : Class → List String
  | .mk _ attrs inner exts =>
    (((attrs.filter (fun a => a.forward_ref = false)).map Attr.type)
        ++ exts ++ collect_deps_list inner).filter (fun d => isXsdType d = false)

/-- Dependency sets of a list of classes, concatenated. -/
def collect_deps_list : List Class → List String
  | [] => []
  | c :: cs => collect_deps c ++ collect_deps_list cs
end

mutual
/-- Modelled from the spec: annotate every attribute's type-alias field with
the alias-map entry for its type name (absent entries leave it unset),
recursing into nested inner classes. -/
def apply_aliases (al : List (String × String)) : Class → Class
  | .mk n attrs inner exts =>
    .mk n (attrs.map (fun a => { a with type_alias := dictGet al a.type }))
      (apply_aliases_list al inner) exts

/-- `apply_aliases` over a list of classes. -/
def apply_aliases_list (al : List (String × String)) : List Class → List Class
  | [] => []
  | c :: cs => apply_aliases al c :: apply_aliases_list al cs
end

mutual
/-- All attributes of a class, its own first, then those of its nested inner
classes depth-first. -/
def allAttrs : Class → List Attr
  | .mk _ attrs inner _ => attrs ++ allAttrsList inner

/-- All attributes of a list of classes. -/
def allAttrsList : List Class → List Attr
  | [] => []
  | c :: cs => allAttrs c ++ allAttrsList cs
end

mutual
/-- A class with every forward-reference attribute removed, recursively. -/
def stripForward : Class → Class
  | .mk n attrs inner exts =>
    .mk n (attrs.filter (fun a => a.forward_ref = false)) (stripForwardList inner) exts

/-- `stripForward` over a list of classes. -/
def stripForwardList : List Class → List Class
  | [] => []
  | c :: cs => stripForward c :: stripForwardList cs
end

/-- Modelled from the spec: build the qualified name `\x7bnamespace\x7dlocal`
of a local name under an optional namespace URI. -/
def qname (ns : Option String) (n : String) : String :=
  match ns with
  | none => n
  | some u => "\x7b" ++ u ++ "\x7d" ++ n

/-- One round structure of the topological sort used by the class-list
construction: repeatedly emit, in ascending lexicographic order, every
remaining name whose dependency set has been exhausted, removing the emitted
names from all remaining dependency sets; report a cycle error when no name
is ready.  The fuel argument bounds the number of rounds. -/
def toposortAux (fuel : Nat) (keys : List String) (deps : String → List String) :
    Except String (List String) :=
  match fuel with
  | 0 => if keys.isEmpty then .ok [] else .error "Cyclic dependencies exist"
  | fuel + 1 =>
    if keys.isEmpty then .ok []
    else
      let ordered := keys.filter (fun k => (deps k).isEmpty)
      if ordered.isEmpty then .error "Cyclic dependencies exist"
      else
        match toposortAux fuel (keys.filter (fun k => !(ordered.contains k)))
            (fun k => (deps k).filter (fun d => !(ordered.contains d))) with
        | .ok rest => .ok (List.insertionSort strLe ordered ++ rest)
        | .error e => .error e

/-- The dependency dictionary of the class-list construction: class name to
dependency set with self-dependencies discarded, later classes overwriting
earlier ones of the same name as in a Python dict comprehension. -/
def depsDict (classes : List Class) : List (String × List String) :=
  classes.foldl
    (fun m c => dictSet m c.name ((collect_deps c).filter (fun d => !(d == c.name)))) []

/-- Modelled from the spec: `create_class_list` — the dependency-ordered
sequence of class names.  The unit tests pin its output down to the
flattened topological sort of the name-to-dependencies dictionary (extra
referenced names joining with empty dependency sets, each round emitted in
ascending lexicographic order), which is what is reconstructed here; a
cyclic dependency is a hard error. -/
def create_class_list (classes : List Class) : Except String (List String) :=
  let dict := depsDict classes
  let keys := ((dict.map Prod.fst) ++ (dict.map Prod.snd).flatten).dedup
  toposortAux keys.length keys (fun k => (dictGet dict k).getD [])

/-- Modelled from the spec: `create_class_map` — class name to class, last
write winning on duplicate names. -/
def create_class_map (classes : List Class) : List (String × Class) :=
  classes.foldl (fun m c => dictSet m c.name c) []

/-- Modelled from the spec: `import_classes` — the class-list entries whose
names are not keys of the local class map, in order. -/
def import_classes (r : DependenciesResolver) : List String :=
  r.class_list.filter (fun n => (dictGet r.class_map n).isNone)

/-- Modelled from the spec: resolve the namespace URI of an optional prefix —
the empty prefix maps to the schema's target namespace, a named prefix is
looked up in the schema's namespace map. -/
def nsResolve (schema : Schema) (pfx : Option String) : Option String :=
  match pfx with
  | none => schema.target_namespace
  | some p => dictGet schema.nsmap p

/-- Text of an optional prefix, for error messages. -/
def pfxText : Option String → String
  | none => ""
  | some p => p

/-- Modelled from the spec: `find_package` — resolve the prefix to a
namespace URI, build the qualified key, and look it up in the process-wide
index; a missing key is the unresolved-reference error, carrying the
unresolved prefix and name. -/
def find_package (r : DependenciesResolver) (pfx : Option String) (name : String) :
    Except String String :=
  match dictGet r.processed (qname (nsResolve r.schema pfx) name) with
  | some pkg => .ok pkg
  | none => .error ("unresolved reference " ++ pfxText pfx ++ ":" ++ name)

/-- Modelled from the spec: `add_import` — append the Package record to the
session import list and, when an alias is given, record alias to alias in
the session alias map. -/
def add_import (r : DependenciesResolver) (name : String) (package : String)
    («alias» : Option String) : DependenciesResolver :=
  let r1 := match «alias» with
    | some a => { r with aliases := dictSet r.aliases a a }
    | none => r
  { r1 with imports := r1.imports ++ [{ name := name, «alias» := «alias», source := package }] }

/-- Modelled from the spec: `add_package` — record the class's qualified name
(under the schema's target namespace) to the current package in the
process-wide index. -/
def add_package (r : DependenciesResolver) (obj : Class) : DependenciesResolver :=
  { r with processed :=
      dictSet r.processed (qname r.schema.target_namespace obj.name) r.package }

/-- The loop of `resolve_imports` over the import-needing references. -/
def resolve_imports_go (refs : List String) (r : DependenciesResolver) :
    Except String DependenciesResolver :=
  match refs with
  | [] => .ok r
  | ref :: rest =>
    let pn := splitRef ref
    match find_package r pn.1 pn.2 with
    | .error e => .error e
    | .ok pkg =>
      let «alias» := if pn.1.isSome && (dictGet r.class_map pn.2).isSome
        then some ref else none
      resolve_imports_go rest (add_import r pn.2 pkg «alias»)

/-- Modelled from the spec: `resolve_imports` — for each class-list entry not
in the local class map, in order, split off the prefix, find the package of
the local name, and register the import, with the original prefixed string
as alias exactly when the entry is prefixed and its local name is a class
map key. -/
def resolve_imports (r : DependenciesResolver) : Except String DependenciesResolver :=
  resolve_imports_go (import_classes r) r

/-- Modelled from the spec: `process` — reset imports and aliases, store the
schema and package, build the class map and the dependency-ordered class
list, and resolve imports. -/
def process (r : DependenciesResolver) (classes : List Class) (schema : Schema)
    (package : String) : Except String DependenciesResolver :=
  match create_class_list classes with
  | .error e => .error e
  | .ok clist =>
    resolve_imports
      { r with imports := [], aliases := [], schema := schema, package := package,
               class_map := create_class_map classes, class_list := clist }

/-- Order of the sorted import list: by name, then by source. -/
def pkgLe (p q : Package) : Prop :=
  strLt p.name q.name ∨ (p.name = q.name ∧ strLe p.source q.source)

instance : DecidableRel pkgLe := fun _ _ => by unfold pkgLe; infer_instance

/-- Modelled from the spec: `sorted_imports` — the session import list sorted
by (name, source), leaving the session list untouched. -/
def sorted_imports (r : DependenciesResolver) : List Package :=
  List.insertionSort pkgLe r.imports

/-- The loop of `sorted_classes`: walk the class list, skip names already
yielded and names absent from the class map, and otherwise yield the
alias-annotated class after registering it in the process-wide index. -/
def sorted_classes_go (names : List String) (seen : List String)
    (r : DependenciesResolver) : List Class × DependenciesResolver :=
  match names with
  | [] => ([], r)
  | n :: rest =>
    if n ∈ seen then sorted_classes_go rest seen r
    else
      match dictGet r.class_map n with
      | none => sorted_classes_go rest seen r
      | some c =>
        let c' := apply_aliases r.aliases c
        let out := sorted_classes_go rest (n :: seen) (add_package r c')
        (c' :: out.1, out.2)

/-- Modelled from the spec: `sorted_classes` — from the possibly
duplicate-containing class list, the deduplicated-by-first-occurrence
sequence of locally mapped classes, each alias-annotated and registered in
the process-wide index as it is yielded; the generator's laziness is
modelled by returning the yielded list with the final state. -/
def sorted_classes (r : DependenciesResolver) : List Class × DependenciesResolver :=
  sorted_classes_go r.class_list [] r

/-- First-occurrence deduplication of a name list, skipping an initial seen
set. -/
def dedupFirstAux (seen : List String) : List String → List String
  | [] => []
  | x :: xs =>
    if x ∈ seen then dedupFirstAux seen xs
    else x :: dedupFirstAux (x :: seen) xs

mutual
/-- The attribute-derived dependency entries of one class in source order,
recursing into nested inner classes, as the specification's prose traversal
for `create_class_list` describes them: non-forward-reference,
non-built-in attribute type references in order of appearance. -/
def traversalAttrEntries : Class → List String
  | .mk _ attrs inner _ =>
    (((attrs.filter (fun a => a.forward_ref = false)).map Attr.type).filter
        (fun d => isXsdType d = false)) ++ traversalAttrEntriesList inner

/-- `traversalAttrEntries` over a list of classes. -/
def traversalAttrEntriesList : List Class → List String
  | [] => []
  | c :: cs => traversalAttrEntries c ++ traversalAttrEntriesList cs
end

/-- The class-list order that §4.2 of the specification describes in prose:
for each class in input order, its attribute-derived entries, then its
non-built-in extension references, then immediately the class's own name,
all concatenated (duplicates retained). -/
def create_class_list_traversal (classes : List Class) : List String :=
  (classes.map (fun c =>
      traversalAttrEntries c
        ++ (c.extensions.filter (fun d => isXsdType d = false))
        ++ [c.name])).flatten

/-- The first class of the unit test for `create_class_list`. -/
def testFirst : Class :=
  .mk "a" []
    [.mk "b"
        [⟨"c", "f", "", true, none⟩, ⟨"d", "xs:string", "", false, none⟩,
         ⟨"e", "c:g", "", false, none⟩] [] [],
     .mk "f"
        [⟨"h", "i", "", false, none⟩, ⟨"j", "xs:string", "", false, none⟩,
         ⟨"k", "l", "", false, none⟩] [] []] []

/-- The second class of the unit test for `create_class_list`. -/
def testSecond : Class :=
  .mk "l" [⟨"m", "o", "", false, none⟩] [] []

/-- The third class of the unit test for `create_class_list`. -/
def testThird : Class :=
  .mk "p" [] [] ["xs:int", "a"]

/-- The three-class input of the unit test for `create_class_list`. -/
def testClasses : List Class := [testFirst, testSecond, testThird]

/-- Resolver state mirroring the unit test for `find_package`: two known
namespace prefixes and a process-wide index holding two qualified names. -/
def c3schema : Schema :=
  { target_namespace := none,
    nsmap := [("common", "http://wwww.foobar.xx/common"),
              ("other", "http://wwww.foobar.xx/other")] }

def c3resolver : DependenciesResolver :=
  { emptyResolver with
    schema := c3schema,
    processed := [("\x7bhttp://wwww.foobar.xx/common\x7dfoobar", "foo.bar"),
                  ("\x7bhttp://wwww.foobar.xx/common\x7dsomething", "some.thing")] }

/-- What `resolve_imports` must register for one class-list entry: the
Package record carries the entry's local name, the package found for it,
and the original prefixed string as alias exactly when the entry is
prefixed and its local name is a class-map key. -/
def refSpecPkg (r : DependenciesResolver) (ref : String) (p : Package) : Prop :=
  p.name = (splitRef ref).2 ∧
  find_package r (splitRef ref).1 (splitRef ref).2 = .ok p.source ∧
  p.«alias» = (if (splitRef ref).1.isSome &&
      (dictGet r.class_map (splitRef ref).2).isSome then some ref else none)

/-- The Package record that `resolve_imports` registers for one entry. -/
def importRecord (r : DependenciesResolver) (ref : String) (pkg : String) : Package :=
  Package.mk (splitRef ref).2
    (if (splitRef ref).1.isSome && (dictGet r.class_map (splitRef ref).2).isSome
      then some ref else none)
    pkg

/-- Resolver state mirroring the unit test for `resolve_imports`: class map
with the single class `life`, class list `[foo, bar, thug:life, common:type]`,
and a process-wide index resolving all four references. -/
def c4schema : Schema :=
  { target_namespace := some "http://t",
    nsmap := [("thug", "http://u1"), ("common", "http://u2")] }

def c4resolver : DependenciesResolver :=
  { emptyResolver with
    schema := c4schema,
    processed := [("\x7bhttp://t\x7dfoo", "first"), ("\x7bhttp://t\x7dbar", "second"),
                  ("\x7bhttp://u1\x7dlife", "third"), ("\x7bhttp://u2\x7dtype", "forth")],
    class_map := [("life", Class.mk "life" [] [] [])],
    class_list := ["foo", "bar", "thug:life", "common:type"],
    package := "pkg" }

/-- The resolver state `resolve_imports` produces from `c4resolver`. -/
def c4resolved : DependenciesResolver :=
  { c4resolver with
    imports := [{ name := "foo", «alias» := none, source := "first" },
                { name := "bar", «alias» := none, source := "second" },
                { name := "life", «alias» := some "thug:life", source := "third" },
                { name := "type", «alias» := none, source := "forth" }],
    aliases := [("thug:life", "thug:life")] }

/-- Resolver state mirroring the unit test for `sorted_classes`: class list
`[a, b, c, d]`, class map holding only `c` and `a`. -/
def c2resolver : DependenciesResolver :=
  { emptyResolver with
    class_list := ["a", "b", "c", "d"],
    class_map := [("c", Class.mk "c" [] [] []), ("a", Class.mk "a" [] [] [])] }

/-- Schema for the two-document registration example. -/
def c7schema : Schema := { target_namespace := some "http://ns", nsmap := [] }

/-- The single class of the two-document registration example. -/
def c7class : Class := Class.mk "x" [] [] []

/-- The resolver state after processing document one (package `pkg1`). -/
def c7run1 : DependenciesResolver :=
  { processed := [], aliases := [], imports := [], class_list := ["x"],
    class_map := [("x", c7class)], schema := c7schema, package := "pkg1" }

/-- The resolver state after processing document two (package `pkg2`),
whose process-wide index still holds document one's registration. -/
def c7run2 : DependenciesResolver :=
  { processed := [("\x7bhttp://ns\x7dx", "pkg1")], aliases := [], imports := [],
    class_list := ["x"], class_map := [("x", c7class)], schema := c7schema,
    package := "pkg2" }

/-! ### Order lemmas for the lexicographic string comparison -/

theorem charLtList_asymm : ∀ as bs, charLtList as bs = true → charLtList bs as = false := by
  intro as
  induction as with
  | nil =>
    intro bs h
    cases bs with
    | nil => simp [charLtList] at h
    | cons b bs => simp [charLtList]
  | cons a as ih =>
    intro bs h
    cases bs with
    | nil => simp [charLtList] at h
    | cons b bs =>
      by_cases hab : a < b
      · have hba : ¬ b < a := lt_asymm hab
        simp [charLtList, hab, hba]
      · by_cases hba : b < a
        · simp [charLtList, hab, hba] at h
        · simp [charLtList, hab, hba] at h ⊢
          exact ih bs h

theorem charLtList_eq_of_not_lt :
    ∀ as bs, charLtList as bs = false → charLtList bs as = false → as = bs := by
  intro as
  induction as with
  | nil =>
    intro bs h1 _
    cases bs with
    | nil => rfl
    | cons b bs => simp [charLtList] at h1
  | cons a as ih =>
    intro bs h1 h2
    cases bs with
    | nil => simp [charLtList] at h2
    | cons b bs =>
      by_cases hab : a < b
      · simp [charLtList, hab] at h1
      · by_cases hba : b < a
        · simp [charLtList, hba] at h2
        · simp [charLtList, hab, hba] at h1 h2
          have heq : a = b := le_antisymm (le_of_not_lt hba) (le_of_not_lt hab)
          rw [heq, ih bs h1 h2]

theorem charLtList_trans :
    ∀ as bs cs, charLtList as bs = true → charLtList bs cs = true →
      charLtList as cs = true := by
  intro as
  induction as with
  | nil =>
    intro bs cs h1 h2
    cases bs with
    | nil => simp [charLtList] at h1
    | cons b bs =>
      cases cs with
      | nil => simp [charLtList] at h2
      | cons c cs => simp [charLtList]
  | cons a as ih =>
    intro bs cs h1 h2
    cases bs with
    | nil => simp [charLtList] at h1
    | cons b bs =>
      cases cs with
      | nil => simp [charLtList] at h2
      | cons c cs =>
        by_cases hab : a < b
        · by_cases hbc : b < c
          · simp [charLtList, lt_trans hab hbc]
          · by_cases hcb : c < b
            · simp [charLtList, hbc, hcb] at h2
            · have heq : b = c := le_antisymm (le_of_not_lt hcb) (le_of_not_lt hbc)
              subst heq
              simp [charLtList, hab]
        · by_cases hba : b < a
          · simp [charLtList, hab, hba] at h1
          · have heq : a = b := le_antisymm (le_of_not_lt hba) (le_of_not_lt hab)
            subst heq
            simp [charLtList, hab] at h1
            by_cases hac : a < c
            · simp [charLtList, hac]
            · by_cases hca : c < a
              · simp [charLtList, hac, hca] at h2
              · simp [charLtList, hac, hca] at h2 ⊢
                exact ih bs cs h1 h2

theorem str_data_inj {a b : String} (h : a.data = b.data) : a = b :=
  congrArg String.mk h

theorem strLt_trichotomy (a b : String) : strLt a b ∨ strLt b a ∨ a = b := by
  cases h1 : charLtList a.data b.data with
  | true => exact Or.inl h1
  | false =>
    cases h2 : charLtList b.data a.data with
    | true => exact Or.inr (Or.inl h2)
    | false => exact Or.inr (Or.inr (str_data_inj (charLtList_eq_of_not_lt _ _ h1 h2)))

theorem strLt_asymm {a b : String} (h : strLt a b) : ¬ strLt b a := by
  intro h2
  have h3 := charLtList_asymm _ _ h
  rw [strLt, strLtB] at h2
  rw [h3] at h2
  exact Bool.false_ne_true h2

theorem strLt_trans {a b c : String} (h1 : strLt a b) (h2 : strLt b c) : strLt a c :=
  charLtList_trans _ _ _ h1 h2

theorem strLe_total (a b : String) : strLe a b ∨ strLe b a := by
  cases h : charLtList b.data a.data with
  | false =>
    left
    simp [strLe, strLeB, strLtB, h]
  | true =>
    right
    simp [strLe, strLeB, strLtB, charLtList_asymm _ _ h]

theorem strLe_trans {a b c : String} (h1 : strLe a b) (h2 : strLe b c) : strLe a c := by
  simp [strLe, strLeB, strLtB] at h1 h2 ⊢
  cases hca : charLtList c.data a.data with
  | false => rfl
  | true =>
    exfalso
    cases hab : charLtList a.data b.data with
    | true =>
      have h3 := charLtList_trans _ _ _ hca hab
      rw [h3] at h2
      exact Bool.noConfusion h2
    | false =>
      have heq := charLtList_eq_of_not_lt _ _ hab h1
      rw [heq] at hca
      rw [hca] at h2
      exact Bool.noConfusion h2

theorem strLe_refl (a : String) : strLe a a := by
  rcases strLe_total a a with h | h <;> exact h

theorem pkgLe_total (p q : Package) : pkgLe p q ∨ pkgLe q p := by
  rcases strLt_trichotomy p.name q.name with h | h | h
  · exact Or.inl (Or.inl h)
  · exact Or.inr (Or.inl h)
  · rcases strLe_total p.source q.source with h2 | h2
    · exact Or.inl (Or.inr ⟨h, h2⟩)
    · exact Or.inr (Or.inr ⟨h.symm, h2⟩)

theorem pkgLe_trans (p q w : Package) (h1 : pkgLe p q) (h2 : pkgLe q w) : pkgLe p w := by
  rcases h1 with h1 | ⟨h1e, h1s⟩
  · rcases h2 with h2 | ⟨h2e, _⟩
    · exact Or.inl (strLt_trans h1 h2)
    · exact Or.inl (h2e ▸ h1)
  · rcases h2 with h2 | ⟨h2e, h2s⟩
    · exact Or.inl (h1e ▸ h2)
    · exact Or.inr ⟨h1e.trans h2e, strLe_trans h1s h2s⟩

/-! ### Python-dict lemmas -/

theorem dictGet_dictSet_self {α : Type} (m : List (String × α)) (k : String) (v : α) :
    dictGet (dictSet m k v) k = some v := by
  induction m with
  | nil => simp [dictSet, dictGet]
  | cons p rest ih =>
    by_cases h : p.1 = k
    · simp [dictSet, dictGet, h]
    · simp [dictSet, dictGet, h, ih]

theorem dictGet_dictSet_ne {α : Type} (m : List (String × α)) (k k' : String) (v : α)
    (h : k' ≠ k) : dictGet (dictSet m k v) k' = dictGet m k' := by
  induction m with
  | nil => simp [dictSet, dictGet, h.symm]
  | cons p rest ih =>
    by_cases hp : p.1 = k
    · subst hp
      simp [dictSet, dictGet, h.symm, fun hh : p.1 = k' => h (hh.symm.trans rfl)]
    · simp [dictSet, dictGet, hp, ih]

theorem dictSet_idem {α : Type} (m : List (String × α)) (k : String) (v : α) :
    dictSet (dictSet m k v) k v = dictSet m k v := by
  induction m with
  | nil => simp [dictSet]
  | cons p rest ih =>
    by_cases h : p.1 = k
    · simp [dictSet, h]
    · simp [dictSet, h, ih]

theorem dictGet_mem {α : Type} {m : List (String × α)} {k : String} {v : α}
    (h : dictGet m k = some v) : (k, v) ∈ m := by
  induction m with
  | nil => simp [dictGet] at h
  | cons p rest ih =>
    obtain ⟨p1, p2⟩ := p
    by_cases hp : p1 = k
    · simp [dictGet, hp] at h
      subst hp
      subst h
      exact List.mem_cons_self _ _
    · simp [dictGet, hp] at h
      exact List.mem_cons_of_mem _ (ih h)

theorem dictGet_isSome_iff {α : Type} (m : List (String × α)) (k : String) :
    (dictGet m k).isSome = true ↔ k ∈ m.map Prod.fst := by
  induction m with
  | nil => simp [dictGet]
  | cons p rest ih =>
    obtain ⟨p1, p2⟩ := p
    by_cases hp : p1 = k
    · simp [dictGet, hp]
    · simp [dictGet, hp, Ne.symm hp, ih]

/-! ### Dictionaries built by folding -/

theorem mem_dictSet {α : Type} {p : String × α} :
    ∀ (m : List (String × α)) (k : String) (v : α),
      p ∈ dictSet m k v → p = (k, v) ∨ p ∈ m := by
  intro m
  induction m with
  | nil => intro k v h; simpa [dictSet] using h
  | cons q rest ih =>
    intro k v h
    by_cases hq : q.1 = k
    · simp [dictSet, hq] at h
      rcases h with h | h
      · exact Or.inl h
      · exact Or.inr (List.mem_cons_of_mem _ h)
    · simp [dictSet, hq] at h
      rcases h with h | h
      · exact Or.inr (by simp [h])
      · rcases ih k v h with h2 | h2
        · exact Or.inl h2
        · exact Or.inr (List.mem_cons_of_mem _ h2)

theorem mem_foldl_dictSet {α γ : Type} (f : γ → String) (g : γ → α) {p : String × α} :
    ∀ (cs : List γ) (m : List (String × α)),
      p ∈ cs.foldl (fun m c => dictSet m (f c) (g c)) m →
      (∃ c ∈ cs, p = (f c, g c)) ∨ p ∈ m := by
  intro cs
  induction cs with
  | nil => intro m h; exact Or.inr h
  | cons c rest ih =>
    intro m h
    rcases ih (dictSet m (f c) (g c)) h with h2 | h2
    · rcases h2 with ⟨c', hc', he⟩
      exact Or.inl ⟨c', List.mem_cons_of_mem _ hc', he⟩
    · rcases mem_dictSet m (f c) (g c) h2 with h3 | h3
      · exact Or.inl ⟨c, List.mem_cons_self _ _, h3⟩
      · exact Or.inr h3

theorem dictGet_foldl_of_not_mem {α γ : Type} (f : γ → String) (g : γ → α) :
    ∀ (cs : List γ) (m : List (String × α)) (k : String),
      k ∉ cs.map f →
      dictGet (cs.foldl (fun m c => dictSet m (f c) (g c)) m) k = dictGet m k := by
  intro cs
  induction cs with
  | nil => intro m k _; rfl
  | cons c rest ih =>
    intro m k hk
    simp only [List.map_cons, List.mem_cons] at hk
    push_neg at hk
    rw [List.foldl_cons, ih _ _ hk.2, dictGet_dictSet_ne _ _ _ _ hk.1]

theorem dictGet_foldl_self {α γ : Type} (f : γ → String) (g : γ → α) :
    ∀ (cs : List γ) (m : List (String × α)) (c : γ),
      (cs.map f).Nodup → c ∈ cs →
      dictGet (cs.foldl (fun m c => dictSet m (f c) (g c)) m) (f c) = some (g c) := by
  intro cs
  induction cs with
  | nil => intro m c _ h; simp at h
  | cons c0 rest ih =>
    intro m c hnd hc
    simp only [List.map_cons, List.nodup_cons] at hnd
    rcases List.mem_cons.mp hc with h | h
    · subst h
      rw [List.foldl_cons, dictGet_foldl_of_not_mem f g rest _ _ hnd.1,
        dictGet_dictSet_self]
    · exact ih _ c hnd.2 h

theorem dictGet_foldl_some {α γ : Type} (f : γ → String) (g : γ → α) :
    ∀ (cs : List γ) (k : String) (v : α),
      dictGet (cs.foldl (fun m c => dictSet m (f c) (g c)) []) k = some v →
      ∃ c ∈ cs, f c = k ∧ g c = v := by
  intro cs k v h
  have hm := dictGet_mem h
  rcases mem_foldl_dictSet f g cs [] hm with h2 | h2
  · rcases h2 with ⟨c, hc, he⟩
    exact ⟨c, hc, congrArg Prod.fst he.symm, congrArg Prod.snd he.symm⟩
  · simp at h2

theorem mem_keys_dictSet {α : Type} :
    ∀ (m : List (String × α)) (k v x), x ∈ (dictSet m k v).map Prod.fst ↔
      x = k ∨ x ∈ m.map Prod.fst := by
  intro m
  induction m with
  | nil => intro k v x; simp [dictSet]
  | cons p rest ih =>
    intro k v x
    by_cases hp : p.1 = k
    · simp [dictSet, hp]
    · simp [dictSet, hp, ih]
      tauto

theorem mem_keys_foldl_dictSet {α γ : Type} (f : γ → String) (g : γ → α) :
    ∀ (cs : List γ) (m : List (String × α)) (x : String),
      x ∈ (cs.foldl (fun m c => dictSet m (f c) (g c)) m).map Prod.fst ↔
        x ∈ m.map Prod.fst ∨ x ∈ cs.map f := by
  intro cs
  induction cs with
  | nil => intro m x; simp
  | cons c rest ih =>
    intro m x
    rw [List.foldl_cons, ih, mem_keys_dictSet]
    simp
    tauto

/-! ### Structural lemmas on classes -/

theorem apply_aliases_name (al : List (String × String)) (c : Class) :
    (apply_aliases al c).name = c.name := by
  cases c
  simp [apply_aliases, Class.name]

theorem stripForward_name (c : Class) : (stripForward c).name = c.name := by
  cases c
  simp [stripForward, Class.name]

theorem collect_deps_not_builtin {d : String} {c : Class} (h : d ∈ collect_deps c) :
    isXsdType d = false := by
  cases c
  simp only [collect_deps] at h
  simpa using (List.mem_filter.mp h).2

mutual
theorem collect_deps_stripForward : ∀ c : Class, collect_deps (stripForward c) = collect_deps c
  | .mk n attrs inner exts => by
    simp [stripForward, collect_deps, List.filter_filter, Bool.and_self,
      collect_deps_list_stripForward inner]
theorem collect_deps_list_stripForward :
    ∀ cs : List Class, collect_deps_list (stripForwardList cs) = collect_deps_list cs
  | [] => rfl
  | c :: cs => by
    simp [stripForwardList, collect_deps_list, collect_deps_stripForward c,
      collect_deps_list_stripForward cs]
end

mutual
theorem allAttrs_apply_aliases (al : List (String × String)) :
    ∀ c : Class, allAttrs (apply_aliases al c) =
      (allAttrs c).map (fun a => { a with type_alias := dictGet al a.type })
  | .mk n attrs inner exts => by
    simp [apply_aliases, allAttrs, allAttrsList_apply_aliases al inner]
theorem allAttrsList_apply_aliases (al : List (String × String)) :
    ∀ cs : List Class, allAttrsList (apply_aliases_list al cs) =
      (allAttrsList cs).map (fun a => { a with type_alias := dictGet al a.type })
  | [] => rfl
  | c :: cs => by
    simp [apply_aliases_list, allAttrsList, allAttrs_apply_aliases al c,
      allAttrsList_apply_aliases al cs]
end

/-! ### Resolver field bookkeeping -/

theorem add_package_aliases (r : DependenciesResolver) (c : Class) :
    (add_package r c).aliases = r.aliases := rfl

theorem add_package_class_map (r : DependenciesResolver) (c : Class) :
    (add_package r c).class_map = r.class_map := rfl

theorem add_package_schema (r : DependenciesResolver) (c : Class) :
    (add_package r c).schema = r.schema := rfl

theorem add_package_package (r : DependenciesResolver) (c : Class) :
    (add_package r c).package = r.package := rfl

theorem add_import_processed (r : DependenciesResolver) (n p : String) (al : Option String) :
    (add_import r n p al).processed = r.processed := by
  cases al <;> rfl

theorem add_import_class_map (r : DependenciesResolver) (n p : String) (al : Option String) :
    (add_import r n p al).class_map = r.class_map := by
  cases al <;> rfl

theorem add_import_class_list (r : DependenciesResolver) (n p : String) (al : Option String) :
    (add_import r n p al).class_list = r.class_list := by
  cases al <;> rfl

theorem add_import_schema (r : DependenciesResolver) (n p : String) (al : Option String) :
    (add_import r n p al).schema = r.schema := by
  cases al <;> rfl

theorem add_import_package (r : DependenciesResolver) (n p : String) (al : Option String) :
    (add_import r n p al).package = r.package := by
  cases al <;> rfl

theorem add_import_imports (r : DependenciesResolver) (n p : String) (al : Option String) :
    (add_import r n p al).imports =
      r.imports ++ [{ name := n, «alias» := al, source := p }] := by
  cases al <;> rfl

theorem add_import_aliases (r : DependenciesResolver) (n p : String) (al : Option String) :
    (add_import r n p al).aliases =
      (match al with
       | some a => dictSet r.aliases a a
       | none => r.aliases) := by
  cases al <;> rfl

theorem find_package_congr {r1 r2 : DependenciesResolver}
    (hp : r1.processed = r2.processed) (hs : r1.schema = r2.schema)
    (pfx : Option String) (name : String) :
    find_package r1 pfx name = find_package r2 pfx name := by
  simp [find_package, nsResolve, hp, hs]

/-! ### indexOf bookkeeping -/

theorem indexOf_append_left {x : String} :
    ∀ (l1 l2 : List String), x ∈ l1 → (l1 ++ l2).indexOf x = l1.indexOf x := by
  intro l1
  induction l1 with
  | nil => intro l2 h; simp at h
  | cons a l1 ih =>
    intro l2 h
    by_cases ha : a = x
    · simp [List.indexOf_cons, ha]
    · rcases List.mem_cons.mp h with h2 | h2
      · exact absurd h2.symm ha
      · simp [List.indexOf_cons, ha, ih l2 h2]

theorem indexOf_append_right {x : String} :
    ∀ (l1 l2 : List String), x ∉ l1 →
      (l1 ++ l2).indexOf x = l1.length + l2.indexOf x := by
  intro l1
  induction l1 with
  | nil => intro l2 _; simp
  | cons a l1 ih =>
    intro l2 h
    simp only [List.mem_cons] at h
    push_neg at h
    have ha : a ≠ x := fun hh => h.1 hh.symm
    simp [List.indexOf_cons, ha, ih l2 h.2]
    omega

/-! ### Correctness of the topological sort -/

theorem contains_true_iff (l : List String) (x : String) : (l.contains x = true) ↔ x ∈ l := by
  simp [List.contains, List.elem_eq_mem]

theorem not_contains_true_iff (l : List String) (x : String) :
    ((!(l.contains x)) = true) ↔ x ∉ l := by
  simp [List.contains, List.elem_eq_mem]

theorem toposortAux_spec :
    ∀ (fuel : Nat) (keys : List String) (deps : String → List String),
      keys.Nodup →
      (∀ k, k ∈ keys → ∀ d, d ∈ deps k → d ∈ keys) →
      (∀ k, k ∈ keys → k ∉ deps k) →
      ∀ out, toposortAux fuel keys deps = .ok out →
        out.Nodup ∧ (∀ x, x ∈ out ↔ x ∈ keys) ∧
        (∀ k, k ∈ keys → ∀ d, d ∈ deps k → out.indexOf d < out.indexOf k) := by
  intro fuel
  induction fuel with
  | zero =>
    intro keys deps hnd hcl hns out h
    simp only [toposortAux] at h
    by_cases hk : keys.isEmpty = true
    · rw [if_pos hk] at h
      simp only [Except.ok.injEq] at h
      subst h
      have hke : keys = [] := List.isEmpty_iff.mp hk
      subst hke
      exact ⟨List.nodup_nil, by simp, by simp⟩
    · rw [if_neg hk] at h
      simp at h
  | succ fuel ih =>
    intro keys deps hnd hcl hns out h
    simp only [toposortAux] at h
    by_cases hk : keys.isEmpty = true
    · rw [if_pos hk] at h
      simp only [Except.ok.injEq] at h
      subst h
      have hke : keys = [] := List.isEmpty_iff.mp hk
      subst hke
      exact ⟨List.nodup_nil, by simp, by simp⟩
    · rw [if_neg hk] at h
      by_cases ho : (keys.filter (fun k => (deps k).isEmpty)).isEmpty = true
      · rw [if_pos ho] at h
        simp at h
      · rw [if_neg ho] at h
        cases hrec : toposortAux fuel
            (keys.filter (fun k =>
              !((keys.filter (fun k => (deps k).isEmpty)).contains k)))
            (fun k => (deps k).filter (fun d =>
              !((keys.filter (fun k => (deps k).isEmpty)).contains d))) with
        | error e =>
          rw [hrec] at h
          simp at h
        | ok rest =>
          rw [hrec] at h
          simp only [Except.ok.injEq] at h
          subst h
          -- abbreviations
          have hordsub : ∀ x, x ∈ keys.filter (fun k => (deps k).isEmpty) → x ∈ keys :=
            fun x hx => (List.mem_filter.mp hx).1
          have hordempty : ∀ x, x ∈ keys.filter (fun k => (deps k).isEmpty) →
              deps x = [] := by
            intro x hx
            have := (List.mem_filter.mp hx).2
            exact List.isEmpty_iff.mp this
          have hmem2 : ∀ x, x ∈ keys.filter (fun k =>
              !((keys.filter (fun k => (deps k).isEmpty)).contains k)) ↔
              (x ∈ keys ∧ x ∉ keys.filter (fun k => (deps k).isEmpty)) := by
            intro x
            rw [List.mem_filter, not_contains_true_iff]
          have hdep2 : ∀ k x, x ∈ (deps k).filter (fun d =>
              !((keys.filter (fun k => (deps k).isEmpty)).contains d)) ↔
              (x ∈ deps k ∧ x ∉ keys.filter (fun k => (deps k).isEmpty)) := by
            intro k x
            rw [List.mem_filter, not_contains_true_iff]
          obtain ⟨ih1, ih2, ih3⟩ := ih _ _ (hnd.filter _)
            (by
              intro k hk2 d hd2
              rw [hmem2] at hk2
              rw [hdep2] at hd2
              rw [hmem2]
              exact ⟨hcl k hk2.1 d hd2.1, hd2.2⟩)
            (by
              intro k hk2 hmem
              rw [hmem2] at hk2
              rw [hdep2] at hmem
              exact hns k hk2.1 hmem.1)
            rest hrec
          have hperm := List.perm_insertionSort strLe (keys.filter (fun k => (deps k).isEmpty))
          have hsortmem : ∀ x, x ∈ List.insertionSort strLe
              (keys.filter (fun k => (deps k).isEmpty)) ↔
              x ∈ keys.filter (fun k => (deps k).isEmpty) :=
            fun x => hperm.mem_iff
          have hrestmem : ∀ x, x ∈ rest →
              x ∉ keys.filter (fun k => (deps k).isEmpty) := by
            intro x hx
            exact ((hmem2 x).mp ((ih2 x).mp hx)).2
          refine ⟨?_, ?_, ?_⟩
          · refine List.Nodup.append (hperm.nodup_iff.mpr (hnd.filter _)) ih1 ?_
            intro x hx1 hx2
            exact hrestmem x hx2 ((hsortmem x).mp hx1)
          · intro x
            rw [List.mem_append, hsortmem, ih2 x, hmem2]
            constructor
            · rintro (hx | hx)
              · exact hordsub x hx
              · exact hx.1
            · intro hx
              by_cases hxo : x ∈ keys.filter (fun k => (deps k).isEmpty)
              · exact Or.inl hxo
              · exact Or.inr ⟨hx, hxo⟩
          · intro k hkk d hd
            by_cases hko : k ∈ keys.filter (fun k => (deps k).isEmpty)
            · rw [hordempty k hko] at hd
              simp at hd
            · have hknot : k ∉ List.insertionSort strLe
                  (keys.filter (fun k => (deps k).isEmpty)) :=
                fun hh => hko ((hsortmem k).mp hh)
              have hk2 : k ∈ keys.filter (fun k =>
                  !((keys.filter (fun k => (deps k).isEmpty)).contains k)) :=
                (hmem2 k).mpr ⟨hkk, hko⟩
              by_cases hdo : d ∈ keys.filter (fun k => (deps k).isEmpty)
              · have hdin : d ∈ List.insertionSort strLe
                    (keys.filter (fun k => (deps k).isEmpty)) := (hsortmem d).mpr hdo
                rw [indexOf_append_left _ _ hdin, indexOf_append_right _ _ hknot]
                have hlt := List.indexOf_lt_length.mpr hdin
                omega
              · have hd2 : d ∈ (deps k).filter (fun d =>
                    !((keys.filter (fun k => (deps k).isEmpty)).contains d)) :=
                  (hdep2 k d).mpr ⟨hd, hdo⟩
                have hrec3 := ih3 k hk2 d hd2
                have hdnot : d ∉ List.insertionSort strLe
                    (keys.filter (fun k => (deps k).isEmpty)) :=
                  fun hh => hdo ((hsortmem d).mp hh)
                rw [indexOf_append_right _ _ hdnot, indexOf_append_right _ _ hknot]
                omega

/-! ### Properties of the class-list construction -/

theorem create_class_list_props (classes : List Class) (out : List String)
    (h : create_class_list classes = .ok out) :
    out.Nodup ∧
    (∀ x, x ∈ out → (x ∈ classes.map Class.name ∨
      ∃ c, c ∈ classes ∧ x ∈ collect_deps c)) ∧
    (∀ x, x ∈ classes.map Class.name → x ∈ out) ∧
    ((classes.map Class.name).Nodup →
      ∀ c, c ∈ classes → ∀ d, d ∈ collect_deps c → d ≠ c.name →
        out.indexOf d < out.indexOf c.name) := by
  simp only [create_class_list] at h
  obtain ⟨h1, h2, h3⟩ := toposortAux_spec _ _ _ (List.nodup_dedup _)
    (by
      intro k _ d hd
      cases hdg : dictGet (depsDict classes) k with
      | none => rw [hdg] at hd; simp at hd
      | some v =>
        rw [hdg] at hd
        simp only [Option.getD_some] at hd
        have hmem := dictGet_mem hdg
        rw [List.mem_dedup, List.mem_append]
        right
        rw [List.mem_flatten]
        exact ⟨v, List.mem_map_of_mem Prod.snd hmem, hd⟩)
    (by
      intro k _ hkd
      cases hdg : dictGet (depsDict classes) k with
      | none => rw [hdg] at hkd; simp at hkd
      | some v =>
        rw [hdg] at hkd
        simp only [Option.getD_some] at hkd
        simp only [depsDict] at hdg
        obtain ⟨c, _, hname, hval⟩ :=
          dictGet_foldl_some Class.name
            (fun c => (collect_deps c).filter (fun d => !(d == c.name))) classes k v hdg
        subst hval
        have := (List.mem_filter.mp hkd).2
        rw [hname] at this
        simp at this)
    out h
  refine ⟨h1, ?_, ?_, ?_⟩
  · intro x hx
    have := (h2 x).mp hx
    rw [List.mem_dedup, List.mem_append] at this
    rcases this with hx2 | hx2
    · left
      simp only [depsDict] at hx2
      have := (mem_keys_foldl_dictSet Class.name
        (fun c => (collect_deps c).filter (fun d => !(d == c.name))) classes [] x).mp hx2
      simpa using this
    · right
      rw [List.mem_flatten] at hx2
      obtain ⟨v, hv, hxv⟩ := hx2
      rw [List.mem_map] at hv
      obtain ⟨pair, hpair, hsnd⟩ := hv
      simp only [depsDict] at hpair
      rcases mem_foldl_dictSet Class.name
          (fun c => (collect_deps c).filter (fun d => !(d == c.name))) classes [] hpair with
        hcase | hcase
      · obtain ⟨c, hc, he⟩ := hcase
        refine ⟨c, hc, ?_⟩
        rw [he] at hsnd
        rw [← hsnd] at hxv
        exact (List.mem_filter.mp hxv).1
      · simp at hcase
  · intro x hx
    rw [h2 x, List.mem_dedup, List.mem_append]
    left
    simp only [depsDict]
    rw [mem_keys_foldl_dictSet Class.name
      (fun c => (collect_deps c).filter (fun d => !(d == c.name))) classes [] x]
    exact Or.inr hx
  · intro hnd c hc d hd hne
    have hdg : dictGet (depsDict classes) c.name =
        some ((collect_deps c).filter (fun d => !(d == c.name))) := by
      simp only [depsDict]
      exact dictGet_foldl_self Class.name
        (fun c => (collect_deps c).filter (fun d => !(d == c.name))) classes [] c hnd hc
    have hkmem : c.name ∈ ((depsDict classes).map Prod.fst
        ++ ((depsDict classes).map Prod.snd).flatten).dedup := by
      rw [List.mem_dedup, List.mem_append]
      left
      simp only [depsDict]
      rw [mem_keys_foldl_dictSet Class.name
        (fun c => (collect_deps c).filter (fun d => !(d == c.name))) classes [] c.name]
      exact Or.inr (List.mem_map_of_mem Class.name hc)
    have hdmem : d ∈ (fun k => (dictGet (depsDict classes) k).getD []) c.name := by
      simp only [hdg, Option.getD_some]
      rw [List.mem_filter]
      exact ⟨hd, by simp [hne]⟩
    exact h3 c.name hkmem d hdmem

theorem foldl_dictSet_stripForward :
    ∀ (cs : List Class) (m : List (String × List String)),
      (stripForwardList cs).foldl
        (fun m c => dictSet m c.name ((collect_deps c).filter (fun d => !(d == c.name)))) m =
      cs.foldl
        (fun m c => dictSet m c.name ((collect_deps c).filter (fun d => !(d == c.name)))) m := by
  intro cs
  induction cs with
  | nil => intro m; rfl
  | cons c rest ih =>
    intro m
    simp only [stripForwardList, List.foldl_cons, stripForward_name,
      collect_deps_stripForward]
    exact ih _

theorem create_class_list_stripForward (classes : List Class) :
    create_class_list (stripForwardList classes) = create_class_list classes := by
  simp only [create_class_list, depsDict, foldl_dictSet_stripForward]

/-- C1 (amended): for every input class sequence whose top-level names are
distinct (the data model requires name uniqueness within a document) and in
which no top-level class is itself named as a built-in datatype, a
successful `create_class_list` output never contains a built-in/native
datatype name, attribute type references flagged as forward references are
skipped entirely (removing them changes nothing), and a class's own name
never appears in the output before any of that class's non-forward-reference
dependency names (attribute types and non-built-in extension references,
including those of nested inner classes). -/
theorem claim_c1_amended (classes : List Class) (out : List String)
    (hnd : (classes.map Class.name).Nodup)
    (hnb : ∀ c ∈ classes, isXsdType c.name = false)
    (h : create_class_list classes = .ok out) :
    (∀ x ∈ out, isXsdType x = false) ∧
    (∀ c ∈ classes, ∀ d ∈ collect_deps c,
      ¬ (out.indexOf c.name < out.indexOf d)) ∧
    create_class_list (stripForwardList classes) = .ok out := by
  obtain ⟨_, hmem, _, hord⟩ := create_class_list_props classes out h
  refine ⟨?_, ?_, ?_⟩
  · intro x hx
    rcases hmem x hx with hx2 | ⟨c, _, hx2⟩
    · rw [List.mem_map] at hx2
      obtain ⟨c, hc, he⟩ := hx2
      rw [← he]
      exact hnb c hc
    · exact collect_deps_not_builtin hx2
  · intro c hc d hd
    by_cases hne : d = c.name
    · rw [hne]
      exact Nat.lt_irrefl _
    · exact Nat.lt_asymm (hord hnd c hc d hd hne)
  · rw [create_class_list_stripForward]
    exact h

/-- C1 counterexample: the claim quantifies over every input class sequence,
but a class whose own name is a built-in datatype name (here `xs:string`)
makes `create_class_list` emit that built-in name. -/
theorem claim_c1_counterexample :
    create_class_list [Class.mk "xs:string" [] [] []] = .ok ["xs:string"] ∧
    isXsdType "xs:string" = true ∧
    ("xs:string" : String) ∈ ["xs:string"] := by
  refine ⟨rfl, rfl, by simp⟩

/-- C1 witness: the amended claim instantiated on the three-class example of
the unit tests. -/
theorem claim_c1_witness :
    ((testClasses.map Class.name).Nodup ∧
      (∀ c ∈ testClasses, isXsdType c.name = false) ∧
      create_class_list testClasses = .ok ["c:g", "i", "o", "l", "a", "p"]) ∧
    (∀ x ∈ ["c:g", "i", "o", "l", "a", "p"], isXsdType x = false) ∧
    (∀ c ∈ testClasses, ∀ d ∈ collect_deps c,
      ¬ ((["c:g", "i", "o", "l", "a", "p"] : List String).indexOf c.name <
        (["c:g", "i", "o", "l", "a", "p"] : List String).indexOf d)) := by
  have hmain := claim_c1_amended testClasses _ (by decide) (by decide) rfl
  exact ⟨⟨by decide, by decide, rfl⟩, hmain.1, hmain.2.1⟩

/-- C5 counterexample: on the three-class example of the unit tests the
sequence described by the specification's prose traversal (attribute
entries, then extensions, then the class's own name, per class in input
order, duplicates retained) differs from what `create_class_list` actually
returns, so the output is not that traversal order. -/
theorem claim_c5_counterexample :
    create_class_list testClasses = .ok ["c:g", "i", "o", "l", "a", "p"] ∧
    create_class_list_traversal testClasses =
      ["c:g", "i", "l", "a", "o", "l", "a", "p"] ∧
    (["c:g", "i", "l", "a", "o", "l", "a", "p"] : List String) ≠
      ["c:g", "i", "o", "l", "a", "p"] :=
  ⟨rfl, rfl, by decide⟩

/-- C5 (amended): the output of `create_class_list` is a deduplicated
topological ordering of the class names and their non-built-in dependency
names — it never contains a duplicate — produced in rounds of
dependency-free names in ascending lexicographic order, not the
duplicate-retaining traversal sequence of the prose; on the three-class
example of the unit tests the output is exactly
[c:g, i, o, l, a, p]. -/
theorem claim_c5_amended :
    (∀ (classes : List Class) (out : List String),
      create_class_list classes = .ok out → out.Nodup) ∧
    create_class_list testClasses = .ok ["c:g", "i", "o", "l", "a", "p"] :=
  ⟨fun classes out h => (create_class_list_props classes out h).1, rfl⟩

/-- C5 witness: the amended claim instantiated on the test example. -/
theorem claim_c5_witness :
    create_class_list testClasses = .ok ["c:g", "i", "o", "l", "a", "p"] ∧
    (["c:g", "i", "o", "l", "a", "p"] : List String).Nodup :=
  ⟨rfl, claim_c5_amended.1 testClasses _ rfl⟩

/-- C8: for every class and alias map, `apply_aliases` gives every attribute
(including those of nested inner classes, recursively) the type-alias value
of the alias-map entry for its type name — the mapped alias value exactly
when the type name is a key of the alias map, and an unset (null) alias
field for every other attribute — leaving everything else unchanged. -/
theorem claim_c8 (al : List (String × String)) (c : Class) :
    allAttrs (apply_aliases al c) =
      (allAttrs c).map (fun a => { a with type_alias := dictGet al a.type }) ∧
    (∀ a ∈ allAttrs (apply_aliases al c),
      (a.type ∈ al.map Prod.fst → ∃ v, dictGet al a.type = some v ∧
        a.type_alias = some v) ∧
      (a.type ∉ al.map Prod.fst → a.type_alias = none)) := by
  refine ⟨allAttrs_apply_aliases al c, ?_⟩
  intro a ha
  rw [allAttrs_apply_aliases al c, List.mem_map] at ha
  obtain ⟨a0, _, he⟩ := ha
  have htype : a.type = a0.type := by rw [← he]
  have halias : a.type_alias = dictGet al a0.type := by rw [← he]
  constructor
  · intro hmem
    rw [htype] at hmem
    have hsome := (dictGet_isSome_iff al a0.type).mpr hmem
    cases hdg : dictGet al a0.type with
    | none => rw [hdg] at hsome; simp at hsome
    | some v =>
      refine ⟨v, by rw [htype, hdg], by rw [halias, hdg]⟩
  · intro hmem
    rw [htype] at hmem
    cases hdg : dictGet al a0.type with
    | none => rw [halias, hdg]
    | some v =>
      exfalso
      exact hmem ((dictGet_isSome_iff al a0.type).mp (by rw [hdg]; rfl))

/-- C9: `add_import` appends exactly one Package record (name, alias,
source = package) at the end of the session import list; exactly when an
alias is given it additionally records alias-to-alias in the session alias
map, after which the same literal alias string is already known and a
repeated registration leaves the alias map unchanged; no other resolver
field is touched. -/
theorem claim_c9 (r : DependenciesResolver) (n p : String) (al : Option String) :
    (add_import r n p al).imports =
      r.imports ++ [{ name := n, «alias» := al, source := p }] ∧
    (add_import r n p al).aliases =
      (match al with
       | some a => dictSet r.aliases a a
       | none => r.aliases) ∧
    (∀ a, dictGet (add_import r n p (some a)).aliases a = some a) ∧
    (∀ a n2 p2, (add_import (add_import r n p (some a)) n2 p2 (some a)).aliases =
      (add_import r n p (some a)).aliases) ∧
    (add_import r n p al).processed = r.processed ∧
    (add_import r n p al).class_map = r.class_map ∧
    (add_import r n p al).class_list = r.class_list ∧
    (add_import r n p al).schema = r.schema ∧
    (add_import r n p al).package = r.package := by
  refine ⟨add_import_imports r n p al, add_import_aliases r n p al, ?_, ?_,
    add_import_processed r n p al, add_import_class_map r n p al,
    add_import_class_list r n p al, add_import_schema r n p al,
    add_import_package r n p al⟩
  · intro a
    rw [add_import_aliases]
    exact dictGet_dictSet_self r.aliases a a
  · intro a n2 p2
    rw [add_import_aliases, add_import_aliases]
    exact dictSet_idem r.aliases a a

/-- C6: `sorted_imports` returns the session's import list sorted ascending
by the pair (name, source) — stated as: the result is sorted with respect to
the name-then-source order and is a permutation of the session import list,
which the purely functional reading leaves untouched; on the unit test's
example the three imports come back in ascending name order. -/
theorem claim_c6 (r : DependenciesResolver) :
    List.Sorted pkgLe (sorted_imports r) ∧
    (sorted_imports r).Perm r.imports ∧
    sorted_imports { emptyResolver with imports :=
        [{ name := "c", «alias» := none, source := "foo" },
         { name := "a", «alias» := none, source := "foo" },
         { name := "b", «alias» := none, source := "foo" }] } =
      [{ name := "a", «alias» := none, source := "foo" },
       { name := "b", «alias» := none, source := "foo" },
       { name := "c", «alias» := none, source := "foo" }] := by
  refine ⟨?_, List.perm_insertionSort pkgLe r.imports, ?_⟩
  · exact @List.sorted_insertionSort Package pkgLe _ ⟨pkgLe_total⟩ ⟨pkgLe_trans⟩ r.imports
  · rfl

/-! ### find_package and resolve_imports -/

/-- C3: `find_package(prefix, name)` resolves the namespace URI for the
prefix via the schema's namespace map (the empty prefix resolving to the
schema's target namespace), builds the qualified key, and returns the
package recorded in the process-wide index under it; when the qualified key
is absent it fails with the unresolved-reference error, whose message
carries the unresolved prefix and name. -/
theorem claim_c3 (r : DependenciesResolver) (pfx : Option String) (name : String) :
    nsResolve r.schema none = r.schema.target_namespace ∧
    (∀ p, pfx = some p → nsResolve r.schema pfx = dictGet r.schema.nsmap p) ∧
    (∀ pkg, dictGet r.processed (qname (nsResolve r.schema pfx) name) = some pkg →
      find_package r pfx name = .ok pkg) ∧
    (dictGet r.processed (qname (nsResolve r.schema pfx) name) = none →
      ∃ msg, find_package r pfx name = .error msg ∧
        (pfxText pfx).data <:+: msg.data ∧ name.data <:+: msg.data) := by
  refine ⟨rfl, ?_, ?_, ?_⟩
  · intro p hp
    subst hp
    rfl
  · intro pkg h
    simp [find_package, h]
  · intro h
    refine ⟨"unresolved reference " ++ pfxText pfx ++ ":" ++ name,
      by simp [find_package, h], ?_, ?_⟩
    · refine ⟨"unresolved reference ".data, (":" ++ name).data, ?_⟩
      simp [String.data_append, List.append_assoc]
    · refine ⟨("unresolved reference " ++ pfxText pfx ++ ":").data, [], ?_⟩
      simp [String.data_append, List.append_assoc]

/-- C3 witness: the behaviour on the unit test's data — the recorded
qualified name resolves to its package, the unrecorded one fails with an
error naming the prefix and the name. -/
theorem claim_c3_witness :
    find_package c3resolver (some "common") "foobar" = .ok "foo.bar" ∧
    (∃ msg, find_package c3resolver (some "other") "something" = .error msg ∧
      ("other" : String).data <:+: msg.data ∧
      ("something" : String).data <:+: msg.data) := by
  constructor
  · exact (claim_c3 c3resolver (some "common") "foobar").2.2.1 "foo.bar" rfl
  · exact (claim_c3 c3resolver (some "other") "something").2.2.2 rfl

theorem refSpecPkg_add_import (r : DependenciesResolver) (n p : String)
    (al : Option String) (ref : String) (pk : Package)
    (h : refSpecPkg (add_import r n p al) ref pk) : refSpecPkg r ref pk := by
  obtain ⟨h1, h2, h3⟩ := h
  refine ⟨h1, ?_, ?_⟩
  · exact (find_package_congr (add_import_processed r n p al).symm
      (add_import_schema r n p al).symm (splitRef ref).1 (splitRef ref).2).trans h2
  · rw [← add_import_class_map r n p al]
    exact h3

theorem resolve_imports_go_spec :
    ∀ (refs : List String) (r r' : DependenciesResolver),
      resolve_imports_go refs r = .ok r' →
      (∃ packs, r'.imports = r.imports ++ packs ∧
        List.Forall₂ (refSpecPkg r) refs packs) ∧
      r'.processed = r.processed ∧ r'.class_map = r.class_map ∧
      r'.class_list = r.class_list ∧ r'.schema = r.schema ∧
      r'.package = r.package := by
  intro refs
  induction refs with
  | nil =>
    intro r r' h
    simp only [resolve_imports_go, Except.ok.injEq] at h
    subst h
    exact ⟨⟨[], by simp, List.Forall₂.nil⟩, rfl, rfl, rfl, rfl, rfl⟩
  | cons ref rest ih =>
    intro r r' h
    simp only [resolve_imports_go] at h
    cases hfp : find_package r (splitRef ref).1 (splitRef ref).2 with
    | error e =>
      rw [hfp] at h
      simp at h
    | ok pkg =>
      rw [hfp] at h
      obtain ⟨⟨packs, himp, hfa⟩, hp, hcm, hcl, hs, hpk⟩ := ih _ r' h
      have hali := add_import_imports r (splitRef ref).2 pkg
        (if (splitRef ref).1.isSome && (dictGet r.class_map (splitRef ref).2).isSome
          then some ref else none)
      refine ⟨⟨importRecord r ref pkg :: packs, ?_, ?_⟩, ?_, ?_, ?_, ?_, ?_⟩
      · rw [himp, hali, List.append_assoc]
        rfl
      · refine List.Forall₂.cons ⟨rfl, hfp, rfl⟩ ?_
        exact hfa.imp (fun a b hab => refSpecPkg_add_import r _ _ _ a b hab)
      · rw [hp, add_import_processed]
      · rw [hcm, add_import_class_map]
      · rw [hcl, add_import_class_list]
      · rw [hs, add_import_schema]
      · rw [hpk, add_import_package]

/-- C4: a successful `resolve_imports` iterates, in order, over the
class-list entries whose names are not keys of the local class map, and
appends for each exactly one import record whose name is the entry's local
name, whose source is the package `find_package` resolves for it, and whose
alias is the original prefixed string exactly when the entry is prefixed
and its local name is a class-map key (so unprefixed entries and entries
with an unmapped local name get no alias); the pre-existing imports are
left in place. -/
theorem claim_c4 (r r' : DependenciesResolver) (h : resolve_imports r = .ok r') :
    r'.imports.take r.imports.length = r.imports ∧
    List.Forall₂ (refSpecPkg r) (import_classes r)
      (r'.imports.drop r.imports.length) := by
  obtain ⟨⟨packs, himp, hfa⟩, _⟩ := resolve_imports_go_spec (import_classes r) r r' h
  rw [himp]
  constructor
  · exact List.take_left r.imports packs
  · rw [List.drop_left]
    exact hfa

/-- C4 witness: the unit test's example — class map with only `life`, class
list `[foo, bar, thug:life, common:type]` — produces, in order, the import
records (foo, no alias), (bar, no alias), (life, alias thug:life),
(type, no alias). -/
theorem claim_c4_witness :
    resolve_imports c4resolver = .ok c4resolved ∧
    c4resolved.imports =
      [{ name := "foo", «alias» := none, source := "first" },
       { name := "bar", «alias» := none, source := "second" },
       { name := "life", «alias» := some "thug:life", source := "third" },
       { name := "type", «alias» := none, source := "forth" }] ∧
    List.Forall₂ (refSpecPkg c4resolver) (import_classes c4resolver)
      (c4resolved.imports.drop c4resolver.imports.length) :=
  ⟨rfl, rfl, (claim_c4 c4resolver c4resolved rfl).2⟩

/-! ### sorted_classes -/

theorem dedupFirstAux_nodup :
    ∀ (l seen : List String),
      (dedupFirstAux seen l).Nodup ∧ ∀ x ∈ dedupFirstAux seen l, x ∉ seen := by
  intro l
  induction l with
  | nil =>
    intro seen
    refine ⟨List.nodup_nil, ?_⟩
    intro x hx
    simp [dedupFirstAux] at hx
  | cons x xs ih =>
    intro seen
    by_cases hx : x ∈ seen
    · have he : dedupFirstAux seen (x :: xs) = dedupFirstAux seen xs := by
        simp [dedupFirstAux, hx]
      rw [he]
      exact ih seen
    · simp only [dedupFirstAux, hx, if_neg]
      obtain ⟨ihnd, ihni⟩ := ih (x :: seen)
      refine ⟨List.nodup_cons.mpr ⟨?_, ihnd⟩, ?_⟩
      · intro hmem
        exact ihni x hmem (List.mem_cons_self _ _)
      · intro y hy
        rcases List.mem_cons.mp hy with hy | hy
        · subst hy; exact hx
        · intro hys
          exact ihni y hy (List.mem_cons_of_mem _ hys)

theorem sorted_classes_go_spec :
    ∀ (names seen : List String) (r : DependenciesResolver),
      (∀ p ∈ r.class_map, Class.name p.2 = p.1) →
      ((sorted_classes_go names seen r).1.map Class.name =
        dedupFirstAux seen (names.filter (fun n => (dictGet r.class_map n).isSome))) ∧
      (∀ c ∈ (sorted_classes_go names seen r).1,
        ∃ c0, dictGet r.class_map c.name = some c0 ∧ c = apply_aliases r.aliases c0) ∧
      (sorted_classes_go names seen r).2 =
        (sorted_classes_go names seen r).1.foldl add_package r := by
  intro names
  induction names with
  | nil =>
    intro seen r _
    exact ⟨rfl, by simp [sorted_classes_go], rfl⟩
  | cons n rest ih =>
    intro seen r hwf
    by_cases hseen : n ∈ seen
    · cases hdg : dictGet r.class_map n with
      | none =>
        obtain ⟨ih1, ih2, ih3⟩ := ih seen r hwf
        simp only [sorted_classes_go, if_pos hseen]
        refine ⟨?_, ih2, ih3⟩
        rw [ih1, List.filter_cons, hdg]
        simp
      | some c =>
        obtain ⟨ih1, ih2, ih3⟩ := ih seen r hwf
        simp only [sorted_classes_go, if_pos hseen]
        refine ⟨?_, ih2, ih3⟩
        rw [ih1, List.filter_cons, hdg]
        simp [dedupFirstAux, hseen]
    · cases hdg : dictGet r.class_map n with
      | none =>
        obtain ⟨ih1, ih2, ih3⟩ := ih seen r hwf
        simp only [sorted_classes_go, if_neg hseen, hdg]
        refine ⟨?_, ih2, ih3⟩
        rw [ih1, List.filter_cons, hdg]
        simp
      | some c =>
        have hname : c.name = n := hwf (n, c) (dictGet_mem hdg)
        have hname2 : (apply_aliases r.aliases c).name = n := by
          rw [apply_aliases_name, hname]
        obtain ⟨ih1, ih2, ih3⟩ :=
          ih (n :: seen) (add_package r (apply_aliases r.aliases c)) (by
            rw [add_package_class_map]
            exact hwf)
        rw [add_package_class_map, add_package_aliases] at *
        simp only [sorted_classes_go, if_neg hseen, hdg]
        refine ⟨?_, ?_, ?_⟩
        · rw [List.map_cons, hname2, ih1, List.filter_cons, hdg]
          simp [dedupFirstAux, hseen]
        · intro cc hcc
          rcases List.mem_cons.mp hcc with hcc | hcc
          · subst hcc
            exact ⟨c, by rw [hname2, hdg], rfl⟩
          · exact ih2 cc hcc
        · rw [List.foldl_cons]
          exact ih3

/-- C2: for a well-formed class map (each value's name is its key, as
`create_class_map` builds it), `sorted_classes` yields, from the possibly
duplicate-containing class list, the deduplicated-by-first-occurrence
sequence of classes whose names are keys of the local class map — no class
is yielded twice — with `apply_aliases` applied to each yielded class and
`add_package` applied for each as a side effect of the iteration (the final
state is the fold of `add_package` over the yields). -/
theorem claim_c2 (r : DependenciesResolver)
    (hwf : ∀ p ∈ r.class_map, Class.name p.2 = p.1) :
    ((sorted_classes r).1.map Class.name).Nodup ∧
    (sorted_classes r).1.Nodup ∧
    ((sorted_classes r).1.map Class.name =
      dedupFirstAux [] (r.class_list.filter (fun n => (dictGet r.class_map n).isSome))) ∧
    (∀ c ∈ (sorted_classes r).1, (dictGet r.class_map c.name).isSome = true) ∧
    (∀ c ∈ (sorted_classes r).1, ∃ c0, dictGet r.class_map c.name = some c0 ∧
      c = apply_aliases r.aliases c0) ∧
    (sorted_classes r).2 = (sorted_classes r).1.foldl add_package r := by
  obtain ⟨h1, h2, h3⟩ := sorted_classes_go_spec r.class_list [] r hwf
  have hnd : ((sorted_classes r).1.map Class.name).Nodup := by
    rw [sorted_classes, h1]
    exact (dedupFirstAux_nodup _ _).1
  refine ⟨hnd, hnd.of_map, h1, ?_, h2, h3⟩
  intro c hc
  obtain ⟨c0, hdg, _⟩ := h2 c hc
  rw [hdg]
  rfl

/-- C2 witness: the unit test's state — class list `[a, b, c, d]`, class map
holding `c` and `a` — yields exactly the classes named `a` then `c`, with no
repetition. -/
theorem claim_c2_witness :
    (∀ p ∈ c2resolver.class_map, Class.name p.2 = p.1) ∧
    (sorted_classes c2resolver).1.map Class.name = ["a", "c"] ∧
    (sorted_classes c2resolver).1.Nodup := by
  have h := claim_c2 c2resolver (by decide)
  exact ⟨by decide, by rw [h.2.2.1]; rfl, h.2.1⟩

/-! ### add_package and the process-wide index -/

theorem sorted_classes_go_processed_persist :
    ∀ (names seen : List String) (r : DependenciesResolver) (key : String),
      dictGet r.processed key = some r.package →
      dictGet ((sorted_classes_go names seen r).2).processed key = some r.package := by
  intro names
  induction names with
  | nil => intro seen r key h; exact h
  | cons n rest ih =>
    intro seen r key h
    by_cases hseen : n ∈ seen
    · simp only [sorted_classes_go, if_pos hseen]
      exact ih seen r key h
    · cases hdg : dictGet r.class_map n with
      | none =>
        simp only [sorted_classes_go, if_neg hseen, hdg]
        exact ih seen r key h
      | some c =>
        simp only [sorted_classes_go, if_neg hseen, hdg]
        have hkey : dictGet (add_package r (apply_aliases r.aliases c)).processed key =
            some (add_package r (apply_aliases r.aliases c)).package := by
          rw [add_package_package]
          by_cases hk : key =
              qname r.schema.target_namespace (apply_aliases r.aliases c).name
          · rw [hk]
            simp only [add_package]
            exact dictGet_dictSet_self _ _ _
          · simp only [add_package]
            rw [dictGet_dictSet_ne _ _ _ _ hk]
            exact h
        have := ih (n :: seen) (add_package r (apply_aliases r.aliases c)) key hkey
        rw [add_package_package] at this
        exact this

theorem sorted_classes_go_registers :
    ∀ (names seen : List String) (r : DependenciesResolver) (n : String) (c : Class),
      (∀ p ∈ r.class_map, Class.name p.2 = p.1) →
      n ∈ names → n ∉ seen → dictGet r.class_map n = some c →
      dictGet ((sorted_classes_go names seen r).2).processed
        (qname r.schema.target_namespace n) = some r.package := by
  intro names
  induction names with
  | nil =>
    intro seen r n c _ hmem _ _
    simp at hmem
  | cons m rest ih =>
    intro seen r n c hwf hmem hnseen hdg
    by_cases hms : m ∈ seen
    · have hnm : n ≠ m := fun he => hnseen (he ▸ hms)
      simp only [sorted_classes_go, if_pos hms]
      exact ih seen r n c hwf ((List.mem_cons.mp hmem).resolve_left hnm) hnseen hdg
    · cases hmg : dictGet r.class_map m with
      | none =>
        have hnm : n ≠ m := fun he => by
          rw [he, hmg] at hdg
          exact Option.noConfusion hdg
        simp only [sorted_classes_go, if_neg hms, hmg]
        exact ih seen r n c hwf ((List.mem_cons.mp hmem).resolve_left hnm) hnseen hdg
      | some cm =>
        have hmname : (apply_aliases r.aliases cm).name = m := by
          rw [apply_aliases_name]
          exact hwf (m, cm) (dictGet_mem hmg)
        simp only [sorted_classes_go, if_neg hms, hmg]
        by_cases hnm : n = m
        · subst hnm
          have hkey : dictGet (add_package r (apply_aliases r.aliases cm)).processed
              (qname r.schema.target_namespace n) =
              some (add_package r (apply_aliases r.aliases cm)).package := by
            rw [add_package_package]
            simp only [add_package]
            rw [hmname]
            exact dictGet_dictSet_self _ _ _
          have := sorted_classes_go_processed_persist rest (n :: seen)
            (add_package r (apply_aliases r.aliases cm))
            (qname r.schema.target_namespace n) hkey
          rw [add_package_package] at this
          exact this
        · have := ih (m :: seen) (add_package r (apply_aliases r.aliases cm)) n c
            (by rw [add_package_class_map]; exact hwf)
            ((List.mem_cons.mp hmem).resolve_left hnm)
            (by
              intro hin
              rcases List.mem_cons.mp hin with he | he
              · exact hnm he
              · exact hnseen he)
            (by rw [add_package_class_map]; exact hdg)
          rw [add_package_package, add_package_schema] at this
          exact this

theorem create_class_map_wf (classes : List Class) :
    ∀ p ∈ create_class_map classes, Class.name p.2 = p.1 := by
  intro p hp
  simp only [create_class_map] at hp
  rcases mem_foldl_dictSet Class.name (fun c => c) classes [] hp with h | h
  · obtain ⟨c, _, he⟩ := h
    rw [he]
  · simp at h

theorem class_map_keys_in_list (classes : List Class) (out : List String)
    (h : create_class_list classes = .ok out) :
    ∀ n, (dictGet (create_class_map classes) n).isSome = true → n ∈ out := by
  intro n hn
  have hkeys := (dictGet_isSome_iff _ n).mp hn
  simp only [create_class_map] at hkeys
  rw [mem_keys_foldl_dictSet Class.name (fun c => c) classes [] n] at hkeys
  rcases hkeys with h2 | h2
  · simp at h2
  · exact (create_class_list_props classes out h).2.2.1 n h2

theorem process_ok_fields (r : DependenciesResolver) (classes : List Class)
    (schema : Schema) (package : String) (r1 : DependenciesResolver)
    (h : process r classes schema package = .ok r1) :
    r1.class_map = create_class_map classes ∧ r1.schema = schema ∧
    r1.package = package ∧ r1.processed = r.processed ∧
    ∃ clist, create_class_list classes = .ok clist ∧ r1.class_list = clist := by
  simp only [process] at h
  cases hcl : create_class_list classes with
  | error e =>
    rw [hcl] at h
    simp at h
  | ok clist =>
    rw [hcl] at h
    simp only [resolve_imports] at h
    obtain ⟨_, hp, hcm, hclist, hs, hpk⟩ := resolve_imports_go_spec _ _ _ h
    exact ⟨hcm, hs, hpk, hp, clist, rfl, hclist⟩

/-- C7 (amended): re-registering the same class through `add_package` is
idempotent (it overwrites the key with the same value), a later document
that emits the same qualified name overwrites the index entry with its own
package (last writer wins, so the recorded package only persists when no
two documents share a qualified name), and after a successful `process(D)`
followed by full iteration of `sorted_classes` every class name in D's
class map has a process-wide index entry under its qualified name mapped to
D's package. -/
theorem claim_c7_amended :
    (∀ (r : DependenciesResolver) (c : Class),
      add_package (add_package r c) c = add_package r c) ∧
    (∀ (r : DependenciesResolver) (classes : List Class) (schema : Schema)
        (package : String) (r1 : DependenciesResolver),
      process r classes schema package = .ok r1 →
      ∀ n, (dictGet r1.class_map n).isSome = true →
        dictGet ((sorted_classes r1).2).processed
          (qname schema.target_namespace n) = some package) := by
  constructor
  · intro r c
    simp only [add_package, add_package_schema, add_package_package]
    rw [dictSet_idem]
  · intro r classes schema package r1 h n hn
    obtain ⟨hcm, hs, hpk, _, clist, hok, hclist⟩ :=
      process_ok_fields r classes schema package r1 h
    have hwf : ∀ p ∈ r1.class_map, Class.name p.2 = p.1 := by
      rw [hcm]
      exact create_class_map_wf classes
    have hin : n ∈ r1.class_list := by
      rw [hclist]
      exact class_map_keys_in_list classes clist hok n (by rw [← hcm]; exact hn)
    obtain ⟨c, hdg⟩ := Option.isSome_iff_exists.mp hn
    have := sorted_classes_go_registers r1.class_list [] r1 n c hwf hin
      (by simp) hdg
    rw [hs, hpk] at this
    exact this

/-- C7 witness: processing one document with the class `x` into package
`pkg1` and fully iterating `sorted_classes` leaves the process-wide index
mapping the qualified name of `x` to `pkg1`. -/
theorem claim_c7_witness :
    process emptyResolver [c7class] c7schema "pkg1" = .ok c7run1 ∧
    (dictGet c7run1.class_map "x").isSome = true ∧
    dictGet ((sorted_classes c7run1).2).processed
      (qname c7schema.target_namespace "x") = some "pkg1" :=
  ⟨rfl, rfl,
    claim_c7_amended.2 emptyResolver [c7class] c7schema "pkg1" c7run1 rfl "x" rfl⟩

/-- C7 counterexample: the claim says a recorded qualified name is never
overwritten with a different package within a run, but processing a second
document that emits the same class name under the same target namespace
into another package overwrites the index entry: after document one the
index maps the key to `pkg1`, after document two it maps it to `pkg2`. -/
theorem claim_c7_counterexample :
    process emptyResolver [c7class] c7schema "pkg1" = .ok c7run1 ∧
    dictGet ((sorted_classes c7run1).2).processed
      (qname (some "http://ns") "x") = some "pkg1" ∧
    process ((sorted_classes c7run1).2) [c7class] c7schema "pkg2" = .ok c7run2 ∧
    dictGet ((sorted_classes c7run2).2).processed
      (qname (some "http://ns") "x") = some "pkg2" ∧
    ("pkg2" : String) ≠ "pkg1" :=
  ⟨rfl, rfl, rfl, rfl, by decide⟩

end Xsdata
